import Mathlib

/-!
Verification of the retrieval-and-aggregation core of the semantic
video-search repository: the post-retrieval threshold re-check inside
`search_similar_segments`, the per-video grouping and ranking of
`group_results_by_video`, and the presentation helpers `format_duration`
and `format_number` (all from `inference.py`, consumed by
`streamlit_app.py`).

Modelling conventions: Python row dictionaries become the record
`SegmentMatch`; nullable columns become `Option`; numeric similarity and
time offsets become `ℚ` (only order comparisons and floor/mod arithmetic
reach them); Python's stable `list.sort`/`sorted` with `reverse=True`
becomes `List.insertionSort` with the relation "key of the left argument
is ≥ key of the right", which places an element after every earlier
element of equal key, exactly as a stable descending sort does.
-/

namespace VideoSearch

open List

/-- One row returned by the `transcriptions` query, converted to a
dictionary with the fourteen column names listed in
`search_similar_segments`. -/
structure SegmentMatch where
  video_id : String
  title : Option String
  description : Option String
  published_at : Option String
  duration : Option Int
  view_count : Option Int
  like_count : Option Int
  comment_count : Option Int
  favorite_count : Option Int
  transcription_language : Option String
  segment_start : Option ℚ
  segment_end : Option ℚ
  segment_text : Option String
  similarity : Option ℚ
deriving DecidableEq

/-- Python truthiness of a nullable float: `None` and `0.0` are falsy,
every other value is truthy. -/
def pyTruthy : Option ℚ → Bool
  | none => false
  | some s => s != 0

/-- The test `if result_dict['similarity'] and result_dict['similarity']
>= min_similarity` of the re-check loop in `search_similar_segments`
(the conjunction short-circuits, so the comparison only runs on a truthy
value). -/
def passesCheck (m : ℚ) (r : SegmentMatch) : Bool :=
  pyTruthy r.similarity && decide (m ≤ r.similarity.getD 0)

/-- The post-retrieval re-check loop of `search_similar_segments`:
start from an empty `results_list` and append each row that passes the
truthiness-and-threshold test. -/
def search_filter (rows : List SegmentMatch) (m : ℚ) : List SegmentMatch :=
  rows.foldl (fun acc r => if passesCheck m r then acc ++ [r] else acc) []

/-- The filter as the spec words it (`filterByThreshold`): keep exactly
the candidates whose similarity is present (non-null) and ≥ the
threshold.  Stated only for comparison with `search_filter`, which is
the code's behaviour. -/
def filterByThreshold_spec (rows : List SegmentMatch) (m : ℚ) : List SegmentMatch :=
  rows.filter (fun r => r.similarity.isSome && decide (m ≤ r.similarity.getD 0))

/-- Python `a % b` on numbers (sign follows the divisor; `format_duration`
only uses positive divisors, where the result lies in `[0, b)`). -/
def pymod (a b : ℚ) : ℚ := a - b * ⌊a / b⌋

/-- Python `f"{n:02d}"` for the minute and second fields (always fed a
value in `[0, 60)` by `format_duration`). -/
def pad2 (n : ℤ) : String := if 0 ≤ n ∧ n < 10 then "0" ++ toString n else toString n

/-- `format_duration` from `inference.py`: `None → "0:00"`, otherwise
`hours = int(seconds // 3600)`, `minutes = int((seconds % 3600) // 60)`,
`secs = int(seconds % 60)`, rendered `H:MM:SS` when `hours > 0` and
`M:SS` otherwise. -/
def format_duration : Option ℚ → String
  | none => "0:00"
  | some s =>
    let hours : ℤ := ⌊s / 3600⌋
    let minutes : ℤ := ⌊pymod s 3600 / 60⌋
    let secs : ℤ := ⌊pymod s 60⌋
    if 0 < hours then
      toString hours ++ ":" ++ pad2 minutes ++ ":" ++ pad2 secs
    else
      toString minutes ++ ":" ++ pad2 secs

/-- Round a rational to the nearest integer, ties to even — the rounding
CPython applies when formatting the quotient with `.1f`. -/
def rhe (q : ℚ) : ℤ := if Int.fract q = 1/2 then 2 * round (q / 2) else round q

/-- Python `f"{q:.1f}"` for the nonnegative quotients produced in
`format_number`: one digit after the decimal point. -/
def oneDec (q : ℚ) : String :=
  let t := rhe (10 * q)
  toString (t / 10) ++ "." ++ toString (t % 10)

/-- `format_number` from `inference.py`: `None → "0"`, a value ≥ 10⁶ is
shown in millions to one decimal with an `M` suffix, a value ≥ 10³ in
thousands to one decimal with a `K` suffix, anything else as the plain
integer. -/
def format_number : Option ℤ → String
  | none => "0"
  | some num =>
    if 1000000 ≤ num then oneDec ((num : ℚ) / 1000000) ++ "M"
    else if 1000 ≤ num then oneDec ((num : ℚ) / 1000) ++ "K"
    else toString num

/-! ### Evaluation helpers for the formatting functions -/

theorem pymod_eval {a b : ℚ} {z : ℤ} (h : ⌊a / b⌋ = z) : pymod a b = a - b * z := by
  simp [pymod, h]

theorem pymod_eq_fract {a b : ℚ} (hb : b ≠ 0) : pymod a b = b * Int.fract (a / b) := by
  rw [pymod, Int.fract, mul_sub]
  congr 1
  field_simp

theorem pymod_nonneg {a b : ℚ} (hb : 0 < b) : 0 ≤ pymod a b := by
  rw [pymod_eq_fract (ne_of_gt hb)]
  have h := Int.fract_nonneg (a / b)
  positivity

theorem pymod_lt {a b : ℚ} (hb : 0 < b) : pymod a b < b := by
  rw [pymod_eq_fract (ne_of_gt hb)]
  calc b * Int.fract (a / b) < b * 1 := mul_lt_mul_of_pos_left (Int.fract_lt_one (a / b)) hb
    _ = b := mul_one b

theorem format_duration_some (s : ℚ) :
    format_duration (some s) =
      if 0 < ⌊s / 3600⌋ then
        toString ⌊s / 3600⌋ ++ ":" ++ pad2 ⌊pymod s 3600 / 60⌋ ++ ":" ++ pad2 ⌊pymod s 60⌋
      else
        toString ⌊pymod s 3600 / 60⌋ ++ ":" ++ pad2 ⌊pymod s 60⌋ := rfl

theorem floor_div_3600_of_lt {s : ℚ} (h0 : 0 ≤ s) (h : s < 3600) : ⌊s / 3600⌋ = 0 := by
  rw [Int.floor_eq_zero_iff]
  constructor
  · positivity
  · rw [div_lt_one (by norm_num)]
    exact h

theorem floor_in_sixty {x : ℚ} (h0 : 0 ≤ x) (h : x < 3600) :
    0 ≤ ⌊x / 60⌋ ∧ ⌊x / 60⌋ < 60 := by
  constructor
  · exact Int.floor_nonneg.mpr (by positivity)
  · rw [Int.floor_lt]
    rw [div_lt_iff₀ (by norm_num)]
    push_cast
    linarith

theorem secs_bounds (s : ℚ) : 0 ≤ ⌊pymod s 60⌋ ∧ ⌊pymod s 60⌋ < 60 := by
  constructor
  · exact Int.floor_nonneg.mpr (pymod_nonneg (by norm_num))
  · rw [Int.floor_lt]
    exact_mod_cast @pymod_lt s 60 (by norm_num)

theorem fd_eval_0 : format_duration (some 0) = "0:00" := by
  have h1 : ⌊(0:ℚ) / 3600⌋ = 0 := by norm_num
  have h2 : pymod (0:ℚ) 3600 = 0 := by rw [pymod_eval h1]; norm_num
  have h3 : ⌊(0:ℚ) / 60⌋ = 0 := by norm_num
  have h4 : pymod (0:ℚ) 60 = 0 := by rw [pymod_eval h3]; norm_num
  rw [format_duration_some, h1, h2, h4]
  norm_num [pad2]
  rfl

theorem fd_eval_65 : format_duration (some 65) = "1:05" := by
  have h1 : ⌊(65:ℚ) / 3600⌋ = 0 := by rw [Int.floor_eq_iff] ; norm_num
  have h2 : pymod (65:ℚ) 3600 = 65 := by rw [pymod_eval h1]; norm_num
  have h3 : ⌊(65:ℚ) / 60⌋ = 1 := by rw [Int.floor_eq_iff] ; norm_num
  have h4 : pymod (65:ℚ) 60 = 5 := by rw [pymod_eval h3]; norm_num
  have h5 : ⌊(5:ℚ)⌋ = 5 := by norm_num
  rw [format_duration_some, h1, h2, h3, h4, h5]
  norm_num [pad2]
  rfl

theorem fd_eval_3661 : format_duration (some 3661) = "1:01:01" := by
  have h1 : ⌊(3661:ℚ) / 3600⌋ = 1 := by rw [Int.floor_eq_iff] ; norm_num
  have h2 : pymod (3661:ℚ) 3600 = 61 := by rw [pymod_eval h1]; norm_num
  have h3 : ⌊(61:ℚ) / 60⌋ = 1 := by rw [Int.floor_eq_iff] ; norm_num
  have h4 : ⌊(3661:ℚ) / 60⌋ = 61 := by rw [Int.floor_eq_iff] ; norm_num
  have h5 : pymod (3661:ℚ) 60 = 1 := by rw [pymod_eval h4]; norm_num
  have h6 : ⌊(1:ℚ)⌋ = 1 := by norm_num
  rw [format_duration_some, h1, h2, h3, h5, h6]
  norm_num [pad2]
  rfl

theorem fd_short (s : ℚ) (h0 : 0 ≤ s) (h : s < 3600) :
    format_duration (some s) = toString ⌊s / 60⌋ ++ ":" ++ pad2 ⌊pymod s 60⌋ ∧
      0 ≤ ⌊s / 60⌋ ∧ ⌊s / 60⌋ < 60 ∧ 0 ≤ ⌊pymod s 60⌋ ∧ ⌊pymod s 60⌋ < 60 := by
  have h1 : ⌊s / 3600⌋ = 0 := floor_div_3600_of_lt h0 h
  have h2 : pymod s 3600 = s := by rw [pymod_eval h1]; ring
  have h3 := floor_in_sixty h0 h
  have h4 := secs_bounds s
  refine ⟨?_, h3.1, h3.2, h4.1, h4.2⟩
  rw [format_duration_some, h1, h2]
  norm_num

theorem fd_long (s : ℚ) (h : 3600 ≤ s) :
    format_duration (some s) =
      toString ⌊s / 3600⌋ ++ ":" ++ pad2 ⌊pymod s 3600 / 60⌋ ++ ":" ++ pad2 ⌊pymod s 60⌋ ∧
      0 < ⌊s / 3600⌋ ∧ 0 ≤ ⌊pymod s 3600 / 60⌋ ∧ ⌊pymod s 3600 / 60⌋ < 60 ∧
      0 ≤ ⌊pymod s 60⌋ ∧ ⌊pymod s 60⌋ < 60 := by
  have h1 : 0 < ⌊s / 3600⌋ := by
    have : (1 : ℤ) ≤ ⌊s / 3600⌋ := by
      rw [Int.le_floor]
      rw [show ((1:ℤ):ℚ) = 1 by norm_num, one_le_div (by norm_num)]
      exact h
    omega
  have h2 := floor_in_sixty (@pymod_nonneg s 3600 (by norm_num))
    (@pymod_lt s 3600 (by norm_num))
  have h3 := secs_bounds s
  refine ⟨?_, h1, h2.1, h2.2, h3.1, h3.2⟩
  rw [format_duration_some, if_pos h1]

/-- `C6` amended: `format_duration` returns `"0:00"` on `None`; for
`0 ≤ seconds < 3600` it returns `M:SS` with the minute count unpadded
and the second count zero-padded to two digits; for `seconds ≥ 3600` it
returns `H:MM:SS` with positive hours; the boundary examples of the
claim hold.  (The claim's further assertion that negative seconds also
yield `"0:00"` is refuted by `format_duration_neg_counterexample`.) -/
theorem format_duration_amended :
    format_duration none = "0:00" ∧
    format_duration (some 0) = "0:00" ∧
    format_duration (some 65) = "1:05" ∧
    format_duration (some 3661) = "1:01:01" ∧
    (∀ s : ℚ, 0 ≤ s → s < 3600 →
      format_duration (some s) = toString ⌊s / 60⌋ ++ ":" ++ pad2 ⌊pymod s 60⌋ ∧
      0 ≤ ⌊s / 60⌋ ∧ ⌊s / 60⌋ < 60 ∧ 0 ≤ ⌊pymod s 60⌋ ∧ ⌊pymod s 60⌋ < 60) ∧
    (∀ s : ℚ, 3600 ≤ s →
      format_duration (some s) =
        toString ⌊s / 3600⌋ ++ ":" ++ pad2 ⌊pymod s 3600 / 60⌋ ++ ":" ++ pad2 ⌊pymod s 60⌋ ∧
      0 < ⌊s / 3600⌋ ∧ 0 ≤ ⌊pymod s 3600 / 60⌋ ∧ ⌊pymod s 3600 / 60⌋ < 60 ∧
      0 ≤ ⌊pymod s 60⌋ ∧ ⌊pymod s 60⌋ < 60) :=
  ⟨rfl, fd_eval_0, fd_eval_65, fd_eval_3661, fd_short, fd_long⟩

/-- Closed instantiation of `format_duration_amended` at `s = 125`. -/
theorem format_duration_amended_witness :
    (0:ℚ) ≤ 125 ∧ (125:ℚ) < 3600 ∧
      format_duration (some 125) = toString ⌊(125:ℚ) / 60⌋ ++ ":" ++ pad2 ⌊pymod 125 60⌋ :=
  ⟨by norm_num, by norm_num,
    (format_duration_amended.2.2.2.2.1 125 (by norm_num) (by norm_num)).1⟩

/-- `C6` counterexample: the claim says null or NEGATIVE seconds give
`"0:00"`, but Python floor division and modulo on a negative input give
`format_duration(-5) == "59:55"`. -/
theorem format_duration_neg_counterexample :
    format_duration (some (-5)) = "59:55" ∧ format_duration (some (-5)) ≠ "0:00" := by
  have h1 : ⌊(-5:ℚ) / 3600⌋ = -1 := by rw [Int.floor_eq_iff] ; norm_num
  have h2 : pymod (-5:ℚ) 3600 = 3595 := by rw [pymod_eval h1]; norm_num
  have h3 : ⌊(3595:ℚ) / 60⌋ = 59 := by rw [Int.floor_eq_iff] ; norm_num
  have h4 : ⌊(-5:ℚ) / 60⌋ = -1 := by rw [Int.floor_eq_iff] ; norm_num
  have h5 : pymod (-5:ℚ) 60 = 55 := by rw [pymod_eval h4]; norm_num
  have h6 : ⌊(55:ℚ)⌋ = 55 := by norm_num
  have heval : format_duration (some (-5)) = "59:55" := by
    rw [format_duration_some, h1, h2, h3, h5, h6]
    norm_num [pad2]
    rfl
  exact ⟨heval, by rw [heval]; decide⟩

/-! ### `format_number` -/

theorem rhe_intCast (z : ℤ) : rhe (z : ℚ) = z := by
  simp only [rhe, Int.fract_intCast]
  norm_num [round_intCast]

theorem rhe_abs (q : ℚ) : |(rhe q : ℚ) - q| ≤ 1/2 := by
  by_cases h : Int.fract q = 1/2
  · have hq : q = ⌊q⌋ + 1/2 := by
      have h' := h
      simp only [Int.fract] at h'
      linarith
    rcases Int.even_or_odd ⌊q⌋ with ⟨j, hj⟩ | ⟨j, hj⟩
    · have hq2 : q / 2 = (j : ℚ) + 1/4 := by
        rw [hq, hj]; push_cast; ring
      have hr : round (q / 2) = j := by
        rw [hq2, round_int_add]
        have h14 : round ((1:ℚ)/4) = 0 := by
          rw [round_eq, show (1:ℚ)/4 + 1/2 = 3/4 by norm_num, Int.floor_eq_zero_iff]
          exact ⟨by norm_num, by norm_num⟩
        rw [h14, add_zero]
      simp only [rhe, if_pos h, hr]
      rw [hq, hj]
      push_cast
      rw [abs_le]
      exact ⟨by linarith, by linarith⟩
    · have hq2 : q / 2 = (j : ℚ) + 3/4 := by
        rw [hq, hj]; push_cast; ring
      have hr : round (q / 2) = j + 1 := by
        rw [hq2, round_int_add]
        have h34 : round ((3:ℚ)/4) = 1 := by
          rw [round_eq, show (3:ℚ)/4 + 1/2 = 5/4 by norm_num, Int.floor_eq_iff]
          norm_num
        rw [h34]
      simp only [rhe, if_pos h, hr]
      rw [hq, hj]
      push_cast
      rw [abs_le]
      exact ⟨by linarith, by linarith⟩
  · simp only [rhe, if_neg h]
    have h' := abs_sub_round q
    rw [abs_sub_comm] at h'
    exact h'

theorem rhe_pos_of_ten_le {q : ℚ} (h10 : (10:ℚ) ≤ q) : 0 < rhe q := by
  have habs := rhe_abs q
  rw [abs_le] at habs
  by_contra hc
  push_neg at hc
  have hc' : (rhe q : ℚ) ≤ 0 := by exact_mod_cast hc
  linarith

theorem fn_small (n : ℤ) (h : n < 1000) : format_number (some n) = toString n := by
  simp only [format_number]
  rw [if_neg (by omega), if_neg (by omega)]

theorem fn_big (n : ℤ) (h : 1000000 ≤ n) :
    format_number (some n) =
      toString (rhe (10 * ((n:ℚ) / 1000000)) / 10) ++ "." ++
        toString (rhe (10 * ((n:ℚ) / 1000000)) % 10) ++ "M" ∧
    |(rhe (10 * ((n:ℚ) / 1000000)) : ℚ) - 10 * ((n:ℚ) / 1000000)| ≤ 1/2 ∧
    0 < rhe (10 * ((n:ℚ) / 1000000)) := by
  have h10 : (10:ℚ) ≤ 10 * ((n:ℚ) / 1000000) := by
    have h1 : (1:ℚ) ≤ (n:ℚ) / 1000000 := by
      rw [one_le_div (by norm_num)]
      exact_mod_cast h
    linarith
  refine ⟨?_, rhe_abs _, rhe_pos_of_ten_le h10⟩
  simp only [format_number, oneDec]
  rw [if_pos h]

theorem fn_mid (n : ℤ) (h : 1000 ≤ n) (h' : n < 1000000) :
    format_number (some n) =
      toString (rhe (10 * ((n:ℚ) / 1000)) / 10) ++ "." ++
        toString (rhe (10 * ((n:ℚ) / 1000)) % 10) ++ "K" ∧
    |(rhe (10 * ((n:ℚ) / 1000)) : ℚ) - 10 * ((n:ℚ) / 1000)| ≤ 1/2 ∧
    0 < rhe (10 * ((n:ℚ) / 1000)) := by
  have h10 : (10:ℚ) ≤ 10 * ((n:ℚ) / 1000) := by
    have h1 : (1:ℚ) ≤ (n:ℚ) / 1000 := by
      rw [one_le_div (by norm_num)]
      exact_mod_cast h
    linarith
  refine ⟨?_, rhe_abs _, rhe_pos_of_ten_le h10⟩
  simp only [format_number, oneDec]
  rw [if_neg (by omega), if_pos h]

theorem fn_eval_1500 : format_number (some 1500) = "1.5K" := by
  have hq : (10:ℚ) * (((1500:ℤ):ℚ) / 1000) = ((15:ℤ):ℚ) := by norm_num
  have h1 : rhe (10 * (((1500:ℤ):ℚ) / 1000)) = 15 := by rw [hq, rhe_intCast]
  simp only [format_number, oneDec]
  rw [if_neg (by norm_num), if_pos (by norm_num), h1]
  rfl

theorem fn_eval_2300000 : format_number (some 2300000) = "2.3M" := by
  have hq : (10:ℚ) * (((2300000:ℤ):ℚ) / 1000000) = ((23:ℤ):ℚ) := by norm_num
  have h1 : rhe (10 * (((2300000:ℤ):ℚ) / 1000000)) = 23 := by rw [hq, rhe_intCast]
  simp only [format_number, oneDec]
  rw [if_pos (by norm_num), h1]
  rfl

/-- `C7`: `format_number` returns `"0"` on null; a count ≥ 10⁶ is shown
as millions rounded to one decimal (the displayed tenths integer is
within half a tenth of the exact value) with an `M` suffix; a count in
`[10³, 10⁶)` likewise in thousands with a `K` suffix; any smaller count
is printed as the integer itself; and the claim's concrete examples
`1500 → "1.5K"` and `2300000 → "2.3M"` hold. -/
theorem format_number_ok :
    format_number none = "0" ∧
    format_number (some 1500) = "1.5K" ∧
    format_number (some 2300000) = "2.3M" ∧
    (∀ n : ℤ, n < 1000 → format_number (some n) = toString n) ∧
    (∀ n : ℤ, 1000000 ≤ n →
      format_number (some n) =
        toString (rhe (10 * ((n:ℚ) / 1000000)) / 10) ++ "." ++
          toString (rhe (10 * ((n:ℚ) / 1000000)) % 10) ++ "M" ∧
      |(rhe (10 * ((n:ℚ) / 1000000)) : ℚ) - 10 * ((n:ℚ) / 1000000)| ≤ 1/2 ∧
      0 < rhe (10 * ((n:ℚ) / 1000000))) ∧
    (∀ n : ℤ, 1000 ≤ n → n < 1000000 →
      format_number (some n) =
        toString (rhe (10 * ((n:ℚ) / 1000)) / 10) ++ "." ++
          toString (rhe (10 * ((n:ℚ) / 1000)) % 10) ++ "K" ∧
      |(rhe (10 * ((n:ℚ) / 1000)) : ℚ) - 10 * ((n:ℚ) / 1000)| ≤ 1/2 ∧
      0 < rhe (10 * ((n:ℚ) / 1000))) :=
  ⟨rfl, fn_eval_1500, fn_eval_2300000, fn_small, fn_big, fn_mid⟩

/-- Closed instantiation of `format_number_ok` at `n = 5000000`. -/
theorem format_number_ok_witness :
    (1000000:ℤ) ≤ 5000000 ∧
      format_number (some 5000000) =
        toString (rhe (10 * (((5000000:ℤ):ℚ) / 1000000)) / 10) ++ "." ++
          toString (rhe (10 * (((5000000:ℤ):ℚ) / 1000000)) % 10) ++ "M" :=
  ⟨by norm_num, (format_number_ok.2.2.2.2.1 5000000 (by norm_num)).1⟩

/-! ### Grouping by video (`group_results_by_video`) -/

/-- The `video_info` dictionary built for a newly seen `video_id` —
exactly the nine keys written by `group_results_by_video` (note:
`transcription_language` is NOT among them). -/
structure VideoInfo where
  video_id : String
  title : Option String
  description : Option String
  published_at : Option String
  duration : Option Int
  view_count : Option Int
  like_count : Option Int
  comment_count : Option Int
  favorite_count : Option Int
deriving DecidableEq

/-- One value of the `video_groups` dictionary: the `video_info` record
plus the list of segments appended so far. -/
structure VideoGroup where
  video_info : VideoInfo
  segments : List SegmentMatch
deriving DecidableEq

/-- Build the `video_info` dictionary from the first result seen for a
video id, field for field as in `group_results_by_video`. -/
def mkVideoInfo (r : SegmentMatch) : VideoInfo :=
  { video_id := r.video_id
    title := r.title
    description := r.description
    published_at := r.published_at
    duration := r.duration
    view_count := r.view_count
    like_count := r.like_count
    comment_count := r.comment_count
    favorite_count := r.favorite_count }

/-- The keys of the `video_info` dictionary literal in
`group_results_by_video`. -/
def videoInfoKeys : List String :=
  ["video_id", "title", "description", "published_at", "duration",
   "view_count", "like_count", "comment_count", "favorite_count"]

/-- The column names of a full result row (the keys every segment
dictionary carries). -/
def resultColumns : List String :=
  ["video_id", "title", "description", "published_at", "duration",
   "view_count", "like_count", "comment_count", "favorite_count",
   "transcription_language", "segment_start", "segment_end",
   "segment_text", "similarity"]

/-- One iteration of the grouping loop: a Python dict preserves key
insertion order, so it is modelled as an association list; a result
whose `video_id` is already a key is appended to that entry's
`segments`, otherwise a fresh entry is appended at the end. -/
def addResult : List (String × VideoGroup) → SegmentMatch → List (String × VideoGroup)
  | [], r => [(r.video_id, ⟨mkVideoInfo r, [r]⟩)]
  | (k, g) :: rest, r =>
    if k = r.video_id then (k, ⟨g.video_info, g.segments ++ [r]⟩) :: rest
    else (k, g) :: addResult rest r

/-- The `for result in results` loop of `group_results_by_video`. -/
def buildGroups (results : List SegmentMatch) : List (String × VideoGroup) :=
  results.foldl addResult []

/-- The ranking key `x['similarity'] or 0` (Python `or` maps both `None`
and `0.0` to `0`). -/
def simKey (r : SegmentMatch) : ℚ := r.similarity.getD 0

/-- In-place stable descending sort of one group's segments by
`x['similarity'] or 0`. -/
def sortSegments (g : VideoGroup) : VideoGroup :=
  ⟨g.video_info, g.segments.insertionSort (fun a b => simKey b ≤ simKey a)⟩

/-- The group ranking key `x[1]['segments'][0]['similarity'] or 0`
(groups are never empty when produced by the loop, see
`group_results_nonempty`). -/
def topKey (g : VideoGroup) : ℚ := ((g.segments.head?.map simKey).getD 0)

/-- `group_results_by_video` from `inference.py`: build the insertion-
ordered dictionary of per-video groups, stably sort each group's
segments by descending similarity, then stably sort the groups by the
similarity of their first (best) segment, descending. -/
def group_results_by_video (results : List SegmentMatch) : List (String × VideoGroup) :=
  ((buildGroups results).map (fun p => (p.1, sortSegments p.2))).insertionSort
    (fun a b => topKey b.2 ≤ topKey a.2)

/-- All segments of all groups, in group order (the concatenation the
idempotence claim re-feeds to the grouping function). -/
def flattenGroups (gs : List (String × VideoGroup)) : List SegmentMatch :=
  (gs.map (fun p => p.2.segments)).flatten

/-! ### Basic facts about the grouping loop -/

theorem flattenGroups_cons (p : String × VideoGroup) (gs : List (String × VideoGroup)) :
    flattenGroups (p :: gs) = p.2.segments ++ flattenGroups gs := by
  simp [flattenGroups]

theorem flatten_addResult (gs : List (String × VideoGroup)) (r : SegmentMatch) :
    flattenGroups (addResult gs r) ~ flattenGroups gs ++ [r] := by
  induction gs with
  | nil => simp [addResult, flattenGroups]
  | cons p rest ih =>
    obtain ⟨k, g⟩ := p
    by_cases hk : k = r.video_id
    · rw [addResult, if_pos hk, flattenGroups_cons, flattenGroups_cons]
      calc (g.segments ++ [r]) ++ flattenGroups rest
          = g.segments ++ ([r] ++ flattenGroups rest) := by rw [List.append_assoc]
        _ ~ g.segments ++ (flattenGroups rest ++ [r]) :=
            (List.perm_append_comm).append_left g.segments
        _ = (g.segments ++ flattenGroups rest) ++ [r] := by rw [List.append_assoc]
    · rw [addResult, if_neg hk, flattenGroups_cons, flattenGroups_cons]
      calc g.segments ++ flattenGroups (addResult rest r)
          ~ g.segments ++ (flattenGroups rest ++ [r]) := ih.append_left g.segments
        _ = (g.segments ++ flattenGroups rest) ++ [r] := by rw [List.append_assoc]

theorem flatten_foldl (l : List SegmentMatch) :
    ∀ gs, flattenGroups (List.foldl addResult gs l) ~ flattenGroups gs ++ l := by
  induction l with
  | nil => intro gs; simp
  | cons r l ih =>
    intro gs
    calc flattenGroups (List.foldl addResult (addResult gs r) l)
        ~ flattenGroups (addResult gs r) ++ l := ih (addResult gs r)
      _ ~ (flattenGroups gs ++ [r]) ++ l := (flatten_addResult gs r).append_right l
      _ = flattenGroups gs ++ (r :: l) := by
          rw [List.append_assoc]; rfl

theorem flatten_buildGroups (rs : List SegmentMatch) :
    flattenGroups (buildGroups rs) ~ rs := by
  have h := flatten_foldl rs []
  simpa [flattenGroups] using h

theorem flatten_map_sort (gs : List (String × VideoGroup)) :
    flattenGroups (gs.map (fun p => (p.1, sortSegments p.2))) ~ flattenGroups gs := by
  induction gs with
  | nil => rfl
  | cons p rest ih =>
    rw [List.map_cons, flattenGroups_cons, flattenGroups_cons]
    exact (List.perm_insertionSort _ p.2.segments).append ih

theorem flatten_perm {gs₁ gs₂ : List (String × VideoGroup)} (h : gs₁ ~ gs₂) :
    flattenGroups gs₁ ~ flattenGroups gs₂ := by
  induction h with
  | nil => rfl
  | cons x _ ih =>
    rw [flattenGroups_cons, flattenGroups_cons]
    exact ih.append_left x.2.segments
  | swap x y l =>
    rw [flattenGroups_cons, flattenGroups_cons, flattenGroups_cons, flattenGroups_cons]
    calc y.2.segments ++ (x.2.segments ++ flattenGroups l)
        = (y.2.segments ++ x.2.segments) ++ flattenGroups l := (List.append_assoc _ _ _).symm
      _ ~ (x.2.segments ++ y.2.segments) ++ flattenGroups l :=
          List.perm_append_comm.append_right _
      _ = x.2.segments ++ (y.2.segments ++ flattenGroups l) := List.append_assoc _ _ _
  | trans _ _ ih1 ih2 => exact ih1.trans ih2

/-- The per-entry invariant combinator: a property of dictionary entries
preserved by segment append and satisfied by fresh entries survives one
loop iteration. -/
theorem addResult_entry_inv {Q : String × VideoGroup → Prop}
    (hupd : ∀ k g r, Q (k, g) → k = r.video_id → Q (k, ⟨g.video_info, g.segments ++ [r]⟩))
    (hnew : ∀ r : SegmentMatch, Q (r.video_id, ⟨mkVideoInfo r, [r]⟩)) :
    ∀ gs r, (∀ p ∈ gs, Q p) → ∀ p ∈ addResult gs r, Q p := by
  intro gs
  induction gs with
  | nil =>
    intro r _ p hp
    rw [addResult] at hp
    rcases List.mem_singleton.mp hp with rfl
    exact hnew r
  | cons q rest ih =>
    intro r hall p hp
    obtain ⟨k, g⟩ := q
    by_cases hk : k = r.video_id
    · rw [addResult, if_pos hk] at hp
      rcases List.mem_cons.mp hp with rfl | hmem
      · exact hupd k g r (hall (k, g) (List.mem_cons_self _ _)) hk
      · exact hall p (List.mem_cons_of_mem _ hmem)
    · rw [addResult, if_neg hk] at hp
      rcases List.mem_cons.mp hp with rfl | hmem
      · exact hall (k, g) (List.mem_cons_self _ _)
      · exact ih r (fun q hq => hall q (List.mem_cons_of_mem _ hq)) p hmem

theorem foldl_entry_inv {Q : String × VideoGroup → Prop}
    (hupd : ∀ k g r, Q (k, g) → k = r.video_id → Q (k, ⟨g.video_info, g.segments ++ [r]⟩))
    (hnew : ∀ r : SegmentMatch, Q (r.video_id, ⟨mkVideoInfo r, [r]⟩)) :
    ∀ (l : List SegmentMatch) gs, (∀ p ∈ gs, Q p) → ∀ p ∈ List.foldl addResult gs l, Q p := by
  intro l
  induction l with
  | nil => intro gs h p hp; exact h p hp
  | cons r l ih =>
    intro gs h p hp
    exact ih (addResult gs r) (addResult_entry_inv hupd hnew gs r h) p hp

theorem buildGroups_nonempty (rs : List SegmentMatch) :
    ∀ p ∈ buildGroups rs, p.2.segments ≠ [] := by
  refine foldl_entry_inv ?_ ?_ rs [] (by simp)
  · intro k g r _ _
    simp
  · intro r
    simp

theorem buildGroups_segIds (rs : List SegmentMatch) :
    ∀ p ∈ buildGroups rs, ∀ s ∈ p.2.segments, s.video_id = p.1 := by
  refine foldl_entry_inv ?_ ?_ rs [] (by simp)
  · intro k g r hq hk s hs
    rcases List.mem_append.mp hs with h | h
    · exact hq s h
    · rcases List.mem_singleton.mp h with rfl
      exact hk.symm
  · intro r s hs
    rcases List.mem_singleton.mp hs with rfl
    rfl

theorem mem_ids_addResult (gs : List (String × VideoGroup)) (r : SegmentMatch) :
    r.video_id ∈ (addResult gs r).map Prod.fst := by
  induction gs with
  | nil => simp [addResult]
  | cons q rest ih =>
    obtain ⟨k, g⟩ := q
    by_cases hk : k = r.video_id
    · rw [addResult, if_pos hk]
      simp [hk]
    · rw [addResult, if_neg hk]
      simpa using Or.inr ih

theorem ids_subset_addResult (gs : List (String × VideoGroup)) (r : SegmentMatch)
    (k : String) (h : k ∈ gs.map Prod.fst) : k ∈ (addResult gs r).map Prod.fst := by
  induction gs with
  | nil => simp at h
  | cons q rest ih =>
    obtain ⟨k', g⟩ := q
    by_cases hk : k' = r.video_id
    · rwa [addResult, if_pos hk]
    · rw [addResult, if_neg hk]
      rcases List.mem_cons.mp h with rfl | hmem
      · simp
      · simpa using Or.inr (ih hmem)

theorem addResult_ids_of_mem {gs : List (String × VideoGroup)} {r : SegmentMatch}
    (h : r.video_id ∈ gs.map Prod.fst) :
    (addResult gs r).map Prod.fst = gs.map Prod.fst := by
  induction gs with
  | nil => simp at h
  | cons q rest ih =>
    obtain ⟨k, g⟩ := q
    by_cases hk : k = r.video_id
    · rw [addResult, if_pos hk]
      simp
    · rw [addResult, if_neg hk]
      have hmem : r.video_id ∈ rest.map Prod.fst := by
        rcases List.mem_cons.mp h with h' | h'
        · exact absurd h'.symm hk
        · exact h'
      simp [ih hmem]

theorem addResult_ids_of_not_mem {gs : List (String × VideoGroup)} {r : SegmentMatch}
    (h : r.video_id ∉ gs.map Prod.fst) :
    (addResult gs r).map Prod.fst = gs.map Prod.fst ++ [r.video_id] := by
  induction gs with
  | nil => simp [addResult]
  | cons q rest ih =>
    obtain ⟨k, g⟩ := q
    have hk : k ≠ r.video_id := by
      intro hcon
      exact h (by simp [hcon])
    have hrest : r.video_id ∉ rest.map Prod.fst := by
      intro hcon
      exact h (by simp [hcon])
    rw [addResult, if_neg hk]
    simp [ih hrest]

theorem addResult_ids_nodup {gs : List (String × VideoGroup)} {r : SegmentMatch}
    (h : (gs.map Prod.fst).Nodup) : ((addResult gs r).map Prod.fst).Nodup := by
  by_cases hm : r.video_id ∈ gs.map Prod.fst
  · rwa [addResult_ids_of_mem hm]
  · rw [addResult_ids_of_not_mem hm]
    rw [List.nodup_append]
    exact ⟨h, List.nodup_singleton _, by simpa using hm⟩

theorem foldl_addResult_pres {P : List (String × VideoGroup) → Prop}
    (hstep : ∀ gs r, P gs → P (addResult gs r)) :
    ∀ (l : List SegmentMatch) gs, P gs → P (List.foldl addResult gs l) := by
  intro l
  induction l with
  | nil => intro gs h; exact h
  | cons r l ih => intro gs h; exact ih (addResult gs r) (hstep gs r h)

theorem buildGroups_ids_nodup (rs : List SegmentMatch) :
    ((buildGroups rs).map Prod.fst).Nodup :=
  @foldl_addResult_pres (fun gs => (gs.map Prod.fst).Nodup)
    (fun _ _ h => addResult_ids_nodup h) rs [] List.nodup_nil

theorem ids_subset_foldl (l : List SegmentMatch) :
    ∀ gs k, k ∈ gs.map Prod.fst → k ∈ (List.foldl addResult gs l).map Prod.fst := by
  induction l with
  | nil => intro gs k h; exact h
  | cons r l ih => intro gs k h; exact ih (addResult gs r) k (ids_subset_addResult gs r k h)

theorem mem_ids_foldl (l : List SegmentMatch) :
    ∀ gs (r : SegmentMatch), r ∈ l → r.video_id ∈ (List.foldl addResult gs l).map Prod.fst := by
  induction l with
  | nil => intro gs r h; simp at h
  | cons x l ih =>
    intro gs r h
    rcases List.mem_cons.mp h with rfl | hmem
    · exact ids_subset_foldl l (addResult gs r) r.video_id (mem_ids_addResult gs r)
    · exact ih (addResult gs x) r hmem

/-! ### Ordering of the grouped result set -/

instance : IsTotal SegmentMatch (fun a b => simKey b ≤ simKey a) :=
  ⟨fun a b => le_total (simKey b) (simKey a)⟩

instance : IsTrans SegmentMatch (fun a b => simKey b ≤ simKey a) :=
  ⟨fun _ _ _ hab hbc => le_trans hbc hab⟩

instance : IsTotal (String × VideoGroup) (fun a b => topKey b.2 ≤ topKey a.2) :=
  ⟨fun a b => le_total (topKey b.2) (topKey a.2)⟩

instance : IsTrans (String × VideoGroup) (fun a b => topKey b.2 ≤ topKey a.2) :=
  ⟨fun _ _ _ hab hbc => le_trans hbc hab⟩

/-- `C10`: every group produced by `group_results_by_video` holds at
least one segment, so the `segments[0]` accesses used for the group
ranking key and for the renderers' "best segment" view are in bounds. -/
theorem group_results_nonempty :
    ∀ (rs : List SegmentMatch), ∀ p ∈ group_results_by_video rs, p.2.segments ≠ [] := by
  intro rs p hp
  have hp' : p ∈ (buildGroups rs).map (fun q => (q.1, sortSegments q.2)) :=
    (List.perm_insertionSort _ _).mem_iff.mp hp
  obtain ⟨q, hq, rfl⟩ := List.mem_map.mp hp'
  have hne := buildGroups_nonempty rs q hq
  simp only [sortSegments]
  intro hcon
  have h2 : q.2.segments ~ [] := by
    rw [← hcon]
    exact (List.perm_insertionSort _ _).symm
  exact hne h2.eq_nil

/-- A concrete accepted match used to instantiate the grouping theorems. -/
def seg1 : SegmentMatch :=
  ⟨"v1", none, none, none, none, none, none, none, none, none, none, none, none, some (9/10)⟩

/-- Closed instantiation of `group_results_nonempty` on the one-match
input `[seg1]`. -/
theorem group_results_nonempty_witness :
    (VideoGroup.mk (mkVideoInfo seg1) [seg1]).segments ≠ [] :=
  group_results_nonempty [seg1] ("v1", ⟨mkVideoInfo seg1, [seg1]⟩)
    (List.mem_singleton_self _)

/-- `C3`: grouping drops and duplicates nothing — the concatenation of
all group segment lists is a permutation of the input list — and the
empty input yields the empty grouped result set rather than an error. -/
theorem grouping_complete :
    (∀ rs : List SegmentMatch, flattenGroups (group_results_by_video rs) ~ rs) ∧
    group_results_by_video [] = [] := by
  constructor
  · intro rs
    have h0 : group_results_by_video rs ~
        (buildGroups rs).map (fun p => (p.1, sortSegments p.2)) :=
      List.perm_insertionSort _ _
    calc flattenGroups (group_results_by_video rs)
        ~ flattenGroups ((buildGroups rs).map (fun p => (p.1, sortSegments p.2))) :=
          flatten_perm h0
      _ ~ flattenGroups (buildGroups rs) := flatten_map_sort _
      _ ~ rs := flatten_buildGroups rs
  · rfl

/-- `C2`: in the output of `group_results_by_video`, the segments inside
every group are sorted by non-increasing `similarity` key (null read as
0), and the groups themselves are sorted by non-increasing top-segment
key — the ordering law of the spec. -/
theorem group_ordering_law (rs : List SegmentMatch) :
    (∀ p ∈ group_results_by_video rs,
      List.Sorted (fun a b => simKey b ≤ simKey a) p.2.segments) ∧
    List.Sorted (fun a b => topKey b.2 ≤ topKey a.2) (group_results_by_video rs) := by
  constructor
  · intro p hp
    have hp' : p ∈ (buildGroups rs).map (fun q => (q.1, sortSegments q.2)) :=
      (List.perm_insertionSort _ _).mem_iff.mp hp
    obtain ⟨q, hq, rfl⟩ := List.mem_map.mp hp'
    simp only [sortSegments]
    exact List.sorted_insertionSort _ _
  · exact List.sorted_insertionSort _ _

/-- Closed instantiation of `group_ordering_law` on `[seg1]`. -/
theorem group_ordering_law_witness :
    List.Sorted (fun a b => simKey b ≤ simKey a)
      (VideoGroup.mk (mkVideoInfo seg1) [seg1]).segments :=
  (group_ordering_law [seg1]).1 ("v1", ⟨mkVideoInfo seg1, [seg1]⟩)
    (List.mem_singleton_self _)

/-- Closed instantiation of `grouping_complete` on `[seg1]`. -/
theorem grouping_complete_witness :
    flattenGroups (group_results_by_video [seg1]) ~ [seg1] :=
  grouping_complete.1 [seg1]

/-! ### Metadata comes from the first occurrence of each video id -/

theorem addResult_cases (gs : List (String × VideoGroup)) (r : SegmentMatch)
    (p : String × VideoGroup) (h : p ∈ addResult gs r) :
    (∃ q ∈ gs, p.1 = q.1 ∧ p.2.video_info = q.2.video_info) ∨
    (p.1 ∉ gs.map Prod.fst ∧ p.1 = r.video_id ∧ p.2.video_info = mkVideoInfo r) := by
  induction gs with
  | nil =>
    rw [addResult] at h
    rcases List.mem_singleton.mp h with rfl
    exact Or.inr ⟨by simp, rfl, rfl⟩
  | cons q rest ih =>
    obtain ⟨k, g⟩ := q
    by_cases hk : k = r.video_id
    · rw [addResult, if_pos hk] at h
      rcases List.mem_cons.mp h with rfl | hmem
      · exact Or.inl ⟨(k, g), List.mem_cons_self _ _, rfl, rfl⟩
      · exact Or.inl ⟨p, List.mem_cons_of_mem _ hmem, rfl, rfl⟩
    · rw [addResult, if_neg hk] at h
      rcases List.mem_cons.mp h with rfl | hmem
      · exact Or.inl ⟨(k, g), List.mem_cons_self _ _, rfl, rfl⟩
      · rcases ih hmem with ⟨q', hq', h1, h2⟩ | ⟨h1, h2, h3⟩
        · exact Or.inl ⟨q', List.mem_cons_of_mem _ hq', h1, h2⟩
        · refine Or.inr ⟨?_, h2, h3⟩
          simp only [List.map_cons, List.mem_cons]
          rintro (hc | hc)
          · exact hk (hc.symm.trans h2)
          · exact h1 hc

theorem foldl_info :
    ∀ (l : List SegmentMatch) (gs : List (String × VideoGroup)) (p : String × VideoGroup),
      p ∈ List.foldl addResult gs l →
      (∃ q ∈ gs, p.1 = q.1 ∧ p.2.video_info = q.2.video_info) ∨
      (p.1 ∉ gs.map Prod.fst ∧
        (l.find? (fun s => s.video_id == p.1)).map mkVideoInfo = some p.2.video_info) := by
  intro l
  induction l with
  | nil =>
    intro gs p hp
    exact Or.inl ⟨p, hp, rfl, rfl⟩
  | cons r l ih =>
    intro gs p hp
    rcases ih (addResult gs r) p hp with ⟨q, hq, h1, h2⟩ | ⟨h1, h2⟩
    · rcases addResult_cases gs r q hq with ⟨q', hq', h1', h2'⟩ | ⟨h1', h2', h3'⟩
      · exact Or.inl ⟨q', hq', h1.trans h1', h2.trans h2'⟩
      · refine Or.inr ⟨by rw [h1]; exact h1', ?_⟩
        have hpred : (r.video_id == p.1) = true := by
          simp [h1, h2']
        have hf : List.find? (fun s : SegmentMatch => s.video_id == p.1) (r :: l) = some r := by
          simp only [List.find?, hpred]
        rw [hf]
        simp [h2.trans h3']
    · have hne : (r.video_id == p.1) = false := by
        have hmem := mem_ids_addResult gs r
        simp only [beq_eq_false_iff_ne, ne_eq]
        intro hc
        rw [hc] at hmem
        exact h1 hmem
      refine Or.inr ⟨?_, ?_⟩
      · intro hc
        exact h1 (ids_subset_addResult gs r p.1 hc)
      · have hf : List.find? (fun s : SegmentMatch => s.video_id == p.1) (r :: l) =
            List.find? (fun s : SegmentMatch => s.video_id == p.1) l := by
          simp only [List.find?, hne]
        rw [hf]
        exact h2

/-- `C4`: the video-level metadata of every group in the output equals
`mkVideoInfo` of the FIRST input match carrying that group's id
(metadata on later matches with the same id is ignored), and every id
occurring in the input owns a group. -/
theorem metadata_first_seen :
    ∀ (rs : List SegmentMatch),
      (∀ p ∈ group_results_by_video rs,
        (rs.find? (fun s => s.video_id == p.1)).map mkVideoInfo = some p.2.video_info) ∧
      (∀ r ∈ rs, ∃ p ∈ group_results_by_video rs, p.1 = r.video_id) := by
  intro rs
  constructor
  · intro p hp
    have hp' : p ∈ (buildGroups rs).map (fun q => (q.1, sortSegments q.2)) :=
      (List.perm_insertionSort _ _).mem_iff.mp hp
    obtain ⟨q, hq, rfl⟩ := List.mem_map.mp hp'
    rcases foldl_info rs [] q hq with ⟨q', hq', _, _⟩ | ⟨_, h2⟩
    · simp at hq'
    · simpa [sortSegments] using h2
  · intro r hr
    have hid : r.video_id ∈ (buildGroups rs).map Prod.fst := mem_ids_foldl rs [] r hr
    obtain ⟨q, hq, hq1⟩ := List.mem_map.mp hid
    refine ⟨(q.1, sortSegments q.2), ?_, hq1⟩
    exact (List.perm_insertionSort _ _).mem_iff.mpr (List.mem_map_of_mem _ hq)

/-- Closed instantiation of `metadata_first_seen` on `[seg1]`. -/
theorem metadata_first_seen_witness :
    ([seg1].find? (fun s => s.video_id == "v1")).map mkVideoInfo =
      some (VideoGroup.mk (mkVideoInfo seg1) [seg1]).video_info :=
  (metadata_first_seen [seg1]).1 ("v1", ⟨mkVideoInfo seg1, [seg1]⟩)
    (List.mem_singleton_self _)

/-! ### The threshold re-check -/

theorem foldl_filter (p : SegmentMatch → Bool) (l : List SegmentMatch) :
    ∀ acc, l.foldl (fun acc r => if p r then acc ++ [r] else acc) acc = acc ++ l.filter p := by
  induction l with
  | nil => intro acc; simp
  | cons r l ih =>
    intro acc
    by_cases hr : p r
    · rw [List.foldl_cons, if_pos hr, ih, List.filter_cons_of_pos hr]
      simp
    · rw [List.foldl_cons, if_neg hr, ih, List.filter_cons_of_neg hr]

theorem search_filter_eq_filter (rows : List SegmentMatch) (m : ℚ) :
    search_filter rows m = rows.filter (passesCheck m) := by
  have h := foldl_filter (passesCheck m) rows []
  simpa [search_filter] using h

/-- `C1` amended: the re-check returns the order-preserving subsequence
of the candidates whose similarity is present, NON-ZERO, and ≥ the
threshold (Python truthiness also drops a present similarity equal to
`0.0`); for any strictly positive threshold this coincides with the
claim as stated. -/
theorem threshold_filter_amended :
    ∀ (rows : List SegmentMatch) (m : ℚ),
      search_filter rows m = rows.filter (passesCheck m) ∧
      (search_filter rows m).Sublist rows ∧
      (∀ r ∈ search_filter rows m, ∃ s, r.similarity = some s ∧ s ≠ 0 ∧ m ≤ s) ∧
      (∀ r ∈ rows, ∀ s, r.similarity = some s → s ≠ 0 → m ≤ s → r ∈ search_filter rows m) ∧
      (0 < m → search_filter rows m = filterByThreshold_spec rows m) := by
  intro rows m
  have heq := search_filter_eq_filter rows m
  refine ⟨heq, ?_, ?_, ?_, ?_⟩
  · rw [heq]
    exact List.filter_sublist rows
  · intro r hr
    rw [heq] at hr
    have hpass := List.of_mem_filter hr
    simp only [passesCheck, Bool.and_eq_true, decide_eq_true_eq] at hpass
    obtain ⟨ht, hle⟩ := hpass
    cases hsim : r.similarity with
    | none =>
      rw [hsim] at ht
      simp [pyTruthy] at ht
    | some s =>
      rw [hsim] at ht hle
      simp only [pyTruthy, bne_iff_ne, ne_eq] at ht
      simp only [Option.getD_some] at hle
      exact ⟨s, rfl, ht, hle⟩
  · intro r hr s hs hne hm
    rw [heq]
    refine List.mem_filter.mpr ⟨hr, ?_⟩
    simp only [passesCheck, Bool.and_eq_true, decide_eq_true_eq]
    constructor
    · rw [hs]
      simpa [pyTruthy] using hne
    · rw [hs]
      simpa using hm
  · intro hm
    rw [heq, filterByThreshold_spec]
    apply List.filter_congr
    intro r _
    cases hsim : r.similarity with
    | none => simp [passesCheck, pyTruthy, hsim]
    | some s =>
      simp only [passesCheck, pyTruthy, hsim, Option.isSome_some, Bool.true_and,
        Option.getD_some]
      by_cases hle : m ≤ s
      · have hs0 : s ≠ 0 := by
          intro h0
          rw [h0] at hle
          exact absurd hle (not_le.mpr hm)
        simp [hle, hs0]
      · simp [hle]

/-- Closed instantiation of `threshold_filter_amended` at threshold
`2/5` (discharging the positivity hypothesis of its last conjunct). -/
theorem threshold_filter_amended_witness :
    (0:ℚ) < 2/5 ∧ search_filter [seg1] (2/5) = filterByThreshold_spec [seg1] (2/5) :=
  ⟨by norm_num, (threshold_filter_amended [seg1] (2/5)).2.2.2.2 (by norm_num)⟩

/-- A candidate whose similarity is present but equal to `0.0`. -/
def seg0 : SegmentMatch :=
  ⟨"v0", none, none, none, none, none, none, none, none, none, none, none, none, some 0⟩

/-- `C1` counterexample: at threshold `0` (inside the claimed range
`[0,1]`) a candidate with present similarity `0.0` satisfies the
claim's acceptance condition (`similarity` present and `≥ 0`) yet the
code excludes it, because Python `0.0` is falsy. -/
theorem threshold_filter_counterexample :
    seg0.similarity = some 0 ∧
    (0:ℚ) ≤ seg0.similarity.getD 0 ∧
    filterByThreshold_spec [seg0] 0 = [seg0] ∧
    search_filter [seg0] 0 = [] ∧
    search_filter [seg0] 0 ≠ filterByThreshold_spec [seg0] 0 := by
  have h1 : filterByThreshold_spec [seg0] 0 = [seg0] := by
    simp [filterByThreshold_spec, seg0]
  have h2 : search_filter [seg0] 0 = [] := by
    simp [search_filter, passesCheck, pyTruthy, seg0]
  refine ⟨rfl, by simp [seg0], h1, h2, ?_⟩
  rw [h1, h2]
  simp

/-! ### The missing `transcription_language` key -/

/-- `C5` evidence: every result row carries a `transcription_language`
column, but the `video_info` record built by `group_results_by_video`
omits that key, so the dashboard's video-level
`video_info.get("transcription_language")` lookup can never find it
(it always falls back to `"Unknown"`). -/
theorem missing_language_bug :
    "transcription_language" ∈ resultColumns ∧
    "transcription_language" ∉ videoInfoKeys := by
  constructor
  · decide
  · decide

/-! ### Idempotence of grouping -/

theorem mem_flattenGroups {s : SegmentMatch} {gs : List (String × VideoGroup)} :
    s ∈ flattenGroups gs ↔ ∃ p ∈ gs, s ∈ p.2.segments := by
  simp only [flattenGroups, List.mem_flatten, List.mem_map]
  constructor
  · rintro ⟨l, ⟨p, hp, rfl⟩, hs⟩
    exact ⟨p, hp, hs⟩
  · rintro ⟨p, hp, hs⟩
    exact ⟨p.2.segments, ⟨p, hp, rfl⟩, hs⟩

theorem foldl_same_key (k : String) (info : VideoInfo) :
    ∀ (b : List SegmentMatch) (acc : List SegmentMatch), (∀ s ∈ b, s.video_id = k) →
      List.foldl addResult [(k, ⟨info, acc⟩)] b = [(k, ⟨info, acc ++ b⟩)] := by
  intro b
  induction b with
  | nil => intro acc _; simp
  | cons s b ih =>
    intro acc hall
    have hs : s.video_id = k := hall s (List.mem_cons_self _ _)
    rw [List.foldl_cons]
    have haddr : addResult [(k, ⟨info, acc⟩)] s = [(k, ⟨info, acc ++ [s]⟩)] := by
      rw [addResult, if_pos hs.symm]
    rw [haddr, ih (acc ++ [s]) (fun t ht => hall t (List.mem_cons_of_mem _ ht)),
      List.append_assoc]
    rfl

theorem foldl_distinct_key :
    ∀ (l : List SegmentMatch) (k : String) (g : VideoGroup)
      (rest : List (String × VideoGroup)),
      (∀ s ∈ l, s.video_id ≠ k) →
      List.foldl addResult ((k, g) :: rest) l = (k, g) :: List.foldl addResult rest l := by
  intro l
  induction l with
  | nil => intro k g rest _; rfl
  | cons r l ih =>
    intro k g rest hall
    have hk : k ≠ r.video_id := fun hc => (hall r (List.mem_cons_self _ _)) hc.symm
    rw [List.foldl_cons, List.foldl_cons, addResult, if_neg hk]
    exact ih k g (addResult rest r) (fun s hs => hall s (List.mem_cons_of_mem _ hs))

theorem buildGroups_block (k : String) (g : VideoGroup)
    (hne : g.segments ≠ [])
    (hids : ∀ s ∈ g.segments, s.video_id = k)
    (hinfo : ∀ s ∈ g.segments, mkVideoInfo s = g.video_info) :
    buildGroups g.segments = [(k, g)] := by
  obtain ⟨s₀, tail, hseg⟩ : ∃ s₀ tail, g.segments = s₀ :: tail := by
    cases hs : g.segments with
    | nil => exact absurd hs hne
    | cons a t => exact ⟨a, t, rfl⟩
  have h0id : s₀.video_id = k := hids s₀ (by rw [hseg]; exact List.mem_cons_self _ _)
  have h0info : mkVideoInfo s₀ = g.video_info :=
    hinfo s₀ (by rw [hseg]; exact List.mem_cons_self _ _)
  rw [hseg]
  show List.foldl addResult [] (s₀ :: tail) = [(k, g)]
  rw [List.foldl_cons]
  have h1 : addResult [] s₀ = [(s₀.video_id, ⟨mkVideoInfo s₀, [s₀]⟩)] := rfl
  rw [h1, h0id, h0info]
  rw [foldl_same_key k g.video_info tail [s₀]
    (fun s hs => hids s (by rw [hseg]; exact List.mem_cons_of_mem _ hs))]
  rw [show ([s₀] ++ tail) = g.segments by rw [hseg]; rfl]

theorem regroup_exact :
    ∀ (out : List (String × VideoGroup)),
      (out.map Prod.fst).Nodup →
      (∀ p ∈ out, p.2.segments ≠ [] ∧ (∀ s ∈ p.2.segments, s.video_id = p.1) ∧
        (∀ s ∈ p.2.segments, mkVideoInfo s = p.2.video_info)) →
      buildGroups (flattenGroups out) = out := by
  intro out
  induction out with
  | nil => intro _ _; rfl
  | cons p rest ih =>
    intro hnd hall
    obtain ⟨k, g⟩ := p
    rw [flattenGroups_cons]
    have hprop := hall (k, g) (List.mem_cons_self _ _)
    have happ : buildGroups (g.segments ++ flattenGroups rest) =
        List.foldl addResult (buildGroups g.segments) (flattenGroups rest) := by
      simp [buildGroups, List.foldl_append]
    rw [happ, buildGroups_block k g hprop.1 hprop.2.1 hprop.2.2]
    have hnd' : k ∉ rest.map Prod.fst ∧ (rest.map Prod.fst).Nodup := by
      rw [List.map_cons, List.nodup_cons] at hnd
      exact hnd
    have hdist : ∀ s ∈ flattenGroups rest, s.video_id ≠ k := by
      intro s hs
      obtain ⟨q, hq, hsq⟩ := mem_flattenGroups.mp hs
      have hsid := (hall q (List.mem_cons_of_mem _ hq)).2.1 s hsq
      rw [hsid]
      intro hc
      exact hnd'.1 (hc ▸ List.mem_map_of_mem Prod.fst hq)
    rw [foldl_distinct_key (flattenGroups rest) k g [] hdist]
    have htail : List.foldl addResult [] (flattenGroups rest) = rest :=
      ih hnd'.2 (fun q hq => hall q (List.mem_cons_of_mem _ hq))
    rw [htail]

theorem out_ids_nodup (rs : List SegmentMatch) :
    ((group_results_by_video rs).map Prod.fst).Nodup := by
  have hperm : group_results_by_video rs ~
      (buildGroups rs).map (fun p => (p.1, sortSegments p.2)) :=
    List.perm_insertionSort _ _
  have h2 := hperm.map Prod.fst
  have h3 : (Prod.fst ∘ fun p : String × VideoGroup => (p.1, sortSegments p.2)) = Prod.fst :=
    rfl
  rw [List.map_map, h3] at h2
  exact h2.nodup_iff.mpr (buildGroups_ids_nodup rs)

theorem out_entry_props (rs : List SegmentMatch)
    (hwf : ∀ a ∈ rs, ∀ b ∈ rs, a.video_id = b.video_id → mkVideoInfo a = mkVideoInfo b) :
    ∀ p ∈ group_results_by_video rs,
      p.2.segments ≠ [] ∧ (∀ s ∈ p.2.segments, s.video_id = p.1) ∧
        (∀ s ∈ p.2.segments, mkVideoInfo s = p.2.video_info) := by
  intro p hp
  have hne := group_results_nonempty rs p hp
  have hp' : p ∈ (buildGroups rs).map (fun q => (q.1, sortSegments q.2)) :=
    (List.perm_insertionSort _ _).mem_iff.mp hp
  obtain ⟨q, hq, rfl⟩ := List.mem_map.mp hp'
  refine ⟨hne, ?_, ?_⟩
  · intro s hs
    have hs' : s ∈ q.2.segments := by
      have hmem : s ∈ q.2.segments.insertionSort (fun a b => simKey b ≤ simKey a) := hs
      exact (List.perm_insertionSort _ _).mem_iff.mp hmem
    exact buildGroups_segIds rs q hq s hs'
  · intro s hs
    have hs' : s ∈ q.2.segments := by
      have hmem : s ∈ q.2.segments.insertionSort (fun a b => simKey b ≤ simKey a) := hs
      exact (List.perm_insertionSort _ _).mem_iff.mp hmem
    rcases foldl_info rs [] q hq with ⟨q', hq', _, _⟩ | ⟨_, h2⟩
    · simp at hq'
    · cases hfind : rs.find? (fun s => s.video_id == q.1) with
      | none =>
        rw [hfind] at h2
        simp at h2
      | some r₀ =>
        rw [hfind] at h2
        have hr₀info : mkVideoInfo r₀ = q.2.video_info := by
          simpa using h2
        have hr₀mem : r₀ ∈ rs := List.mem_of_find?_eq_some hfind
        have hr₀id : r₀.video_id = q.1 := by
          have hpred := List.find?_some hfind
          simpa using hpred
        have hsmem : s ∈ rs := by
          have h1 : s ∈ flattenGroups (buildGroups rs) := mem_flattenGroups.mpr ⟨q, hq, hs'⟩
          exact (flatten_buildGroups rs).mem_iff.mp h1
        have hsid : s.video_id = q.1 := buildGroups_segIds rs q hq s hs'
        have heq := hwf s hsmem r₀ hr₀mem (by rw [hsid, hr₀id])
        rw [heq, hr₀info]
        rfl

/-- `C8` amended: grouping is idempotent on well-formed input — when all
matches sharing a `video_id` carry identical video-level metadata,
re-grouping the flattened grouped result set reproduces it exactly
(same group order, same segment order, same metadata).  On
metadata-inconsistent input this fails, see
`grouping_idempotent_counterexample`. -/
theorem grouping_idempotent :
    ∀ rs : List SegmentMatch,
      (∀ a ∈ rs, ∀ b ∈ rs, a.video_id = b.video_id → mkVideoInfo a = mkVideoInfo b) →
      group_results_by_video (flattenGroups (group_results_by_video rs)) =
        group_results_by_video rs := by
  intro rs hwf
  have hnd : ((group_results_by_video rs).map Prod.fst).Nodup := out_ids_nodup rs
  have hprops := out_entry_props rs hwf
  have hbuild : buildGroups (flattenGroups (group_results_by_video rs)) =
      group_results_by_video rs :=
    regroup_exact _ hnd hprops
  have hsorted_in := (group_ordering_law rs).1
  have hsorted_out := (group_ordering_law rs).2
  show ((buildGroups (flattenGroups (group_results_by_video rs))).map
      (fun p => (p.1, sortSegments p.2))).insertionSort
        (fun a b => topKey b.2 ≤ topKey a.2) = group_results_by_video rs
  rw [hbuild]
  have h1 : ∀ p ∈ group_results_by_video rs,
      (fun p : String × VideoGroup => (p.1, sortSegments p.2)) p = id p := by
    intro p hp
    have hsort := hsorted_in p hp
    simp only [id]
    have hss : sortSegments p.2 = p.2 := by
      simp only [sortSegments]
      rw [List.Sorted.insertionSort_eq hsort]
    rw [hss]
  rw [List.map_congr_left h1, List.map_id]
  exact List.Sorted.insertionSort_eq hsorted_out

/-- Closed instantiation of `grouping_idempotent` on the well-formed
input `[seg1]`. -/
theorem grouping_idempotent_witness :
    group_results_by_video (flattenGroups (group_results_by_video [seg1])) =
      group_results_by_video [seg1] :=
  grouping_idempotent [seg1] (by
    intro a ha b hb _
    rcases List.mem_singleton.mp ha with rfl
    rcases List.mem_singleton.mp hb with rfl
    rfl)

/-- Two matches for the same video carrying different titles (violating
the metadata invariant), the lower-similarity one first. -/
def seg2a : SegmentMatch :=
  ⟨"v2", some "A", none, none, none, none, none, none, none, none, none, none, none,
    some (1/2)⟩

/-- The higher-similarity match for the same video, with another title. -/
def seg2b : SegmentMatch :=
  ⟨"v2", some "B", none, none, none, none, none, none, none, none, none, none, none,
    some (9/10)⟩

theorem cex_out1 : group_results_by_video [seg2a, seg2b] =
    [("v2", ⟨mkVideoInfo seg2a, [seg2b, seg2a]⟩)] := by
  have hcmp : ¬ (simKey seg2b ≤ simKey seg2a) := by
    norm_num [simKey, seg2a, seg2b]
  have hbuild : buildGroups [seg2a, seg2b] =
      [("v2", ⟨mkVideoInfo seg2a, [seg2a, seg2b]⟩)] := rfl
  have hsortl : List.insertionSort (fun a b : SegmentMatch => simKey b ≤ simKey a)
      [seg2a, seg2b] = [seg2b, seg2a] := by
    simp only [List.insertionSort, List.orderedInsert]
    rw [if_neg hcmp]
  show (((buildGroups [seg2a, seg2b]).map
    (fun p => (p.1, sortSegments p.2))).insertionSort
      (fun a b => topKey b.2 ≤ topKey a.2)) = _
  rw [hbuild]
  simp only [List.map_cons, List.map_nil, sortSegments]
  rw [hsortl]
  simp only [List.insertionSort, List.orderedInsert]

theorem cex_out2 : group_results_by_video [seg2b, seg2a] =
    [("v2", ⟨mkVideoInfo seg2b, [seg2b, seg2a]⟩)] := by
  have hcmp : simKey seg2a ≤ simKey seg2b := by
    norm_num [simKey, seg2a, seg2b]
  have hbuild : buildGroups [seg2b, seg2a] =
      [("v2", ⟨mkVideoInfo seg2b, [seg2b, seg2a]⟩)] := rfl
  have hsortl : List.insertionSort (fun a b : SegmentMatch => simKey b ≤ simKey a)
      [seg2b, seg2a] = [seg2b, seg2a] := by
    simp only [List.insertionSort, List.orderedInsert]
    rw [if_pos hcmp]
  show (((buildGroups [seg2b, seg2a]).map
    (fun p => (p.1, sortSegments p.2))).insertionSort
      (fun a b => topKey b.2 ≤ topKey a.2)) = _
  rw [hbuild]
  simp only [List.map_cons, List.map_nil, sortSegments]
  rw [hsortl]
  simp only [List.insertionSort, List.orderedInsert]

/-- `C8` counterexample: with two matches for video `"v2"` carrying
DIFFERENT titles (similarities 0.5 then 0.9), the first grouping stores
the first match's metadata, but regrouping the flattened output stores
the metadata of the now-first higher-similarity match — so re-grouping
does not reproduce the grouped result set. -/
theorem grouping_idempotent_counterexample :
    group_results_by_video (flattenGroups (group_results_by_video [seg2a, seg2b])) ≠
      group_results_by_video [seg2a, seg2b] := by
  rw [cex_out1]
  show group_results_by_video [seg2b, seg2a] ≠ _
  rw [cex_out2]
  simp [mkVideoInfo, seg2a, seg2b]

/-! ### Dynamically typed similarity values (`DataIntegrityError`) -/

/-- A Python value as the re-check loop can encounter it in the
`similarity` slot: null, a float, or a malformed non-numeric value
(modelled as a string). -/
inductive PyVal where
  | none : PyVal
  | num : ℚ → PyVal
  | str : String → PyVal
deriving DecidableEq

/-- Python truthiness over these values: `None`, `0.0` and `""` are
falsy. -/
def pvTruthy : PyVal → Bool
  | .none => false
  | .num q => q != 0
  | .str s => s != ""

/-- Python `value >= m` for `m` a float: defined on numbers, raises
`TypeError` on a string operand. -/
def pvGE : PyVal → ℚ → Except String Bool
  | .num q, m => .ok (decide (m ≤ q))
  | .none, _ => .error "TypeError"
  | .str _, _ => .error "TypeError"

/-- A result row as the dynamically typed re-check sees it (only the
fields the loop reads). -/
structure DynRow where
  video_id : String
  similarity : PyVal
deriving DecidableEq

/-- The re-check loop over dynamically typed rows: the Python
conjunction short-circuits, so `>=` (and its possible `TypeError`) is
only reached for truthy values; an uncaught `TypeError` aborts the
whole loop. -/
def dynLoop (m : ℚ) : List DynRow → List DynRow → Except String (List DynRow)
  | [], acc => .ok acc
  | r :: rows, acc =>
    if pvTruthy r.similarity then
      match pvGE r.similarity m with
      | .error e => .error e
      | .ok b => dynLoop m rows (if b then acc ++ [r] else acc)
    else dynLoop m rows acc

/-- The dynamically typed re-check of `search_similar_segments`. -/
def search_filter_dyn (rows : List DynRow) (m : ℚ) : Except String (List DynRow) :=
  dynLoop m rows []

/-- `C9` counterexample: a candidate whose similarity is the (truthy)
non-numeric value `"abc"` makes the comparison raise `TypeError`, which
propagates out of `search_similar_segments` (its handler logs and
re-raises) — the query aborts instead of excluding the record. -/
theorem dyn_filter_counterexample :
    search_filter_dyn [⟨"v9", PyVal.str "abc"⟩] (2/5) = Except.error "TypeError" := rfl

theorem dynLoop_ok (m : ℚ) :
    ∀ (rows : List DynRow) (acc : List DynRow),
      (∀ r ∈ rows, ∀ s, r.similarity = PyVal.str s → s = "") →
      (∀ r ∈ acc, ∃ q, r.similarity = PyVal.num q ∧ q ≠ 0 ∧ m ≤ q) →
      ∃ out, dynLoop m rows acc = Except.ok out ∧
        ∀ r ∈ out, ∃ q, r.similarity = PyVal.num q ∧ q ≠ 0 ∧ m ≤ q := by
  intro rows
  induction rows with
  | nil =>
    intro acc _ hacc
    exact ⟨acc, rfl, hacc⟩
  | cons r rows ih =>
    intro acc hstr hacc
    have hstr' : ∀ t ∈ rows, ∀ s, t.similarity = PyVal.str s → s = "" :=
      fun t ht => hstr t (List.mem_cons_of_mem _ ht)
    cases hsim : r.similarity with
    | none =>
      rw [dynLoop, hsim]
      simp only [pvTruthy]
      exact ih acc hstr' hacc
    | str s =>
      have hs : s = "" := hstr r (List.mem_cons_self _ _) s hsim
      rw [dynLoop, hsim, hs]
      simp only [pvTruthy]
      rw [if_neg (by simp)]
      exact ih acc hstr' hacc
    | num q =>
      rw [dynLoop, hsim]
      by_cases hq : q = 0
      · rw [hq]
        simp only [pvTruthy]
        rw [if_neg (by simp)]
        exact ih acc hstr' hacc
      · simp only [pvTruthy]
        rw [if_pos (by simpa using hq)]
        simp only [pvGE]
        by_cases hle : m ≤ q
        · rw [if_pos (by simpa using hle)]
          refine ih (acc ++ [r]) hstr' ?_
          intro t ht
          rcases List.mem_append.mp ht with h | h
          · exact hacc t h
          · rcases List.mem_singleton.mp h with rfl
            exact ⟨q, hsim, hq, hle⟩
        · rw [if_neg (by simpa using hle)]
          exact ih acc hstr' hacc

/-- `C9` amended: the re-check never installs a `DataIntegrityError`
path — a malformed similarity value is excluded only when it is FALSY
(e.g. the empty string), in which case the query completes normally and
every accepted record has a nonzero numeric similarity ≥ the threshold;
a TRUTHY non-numeric similarity instead raises `TypeError`, aborting
the whole query (see `dyn_filter_counterexample`). -/
theorem dyn_filter_amended :
    ∀ (rows : List DynRow) (m : ℚ),
      (∀ r ∈ rows, ∀ s, r.similarity = PyVal.str s → s = "") →
      ∃ out, search_filter_dyn rows m = Except.ok out ∧
        ∀ r ∈ out, ∃ q, r.similarity = PyVal.num q ∧ q ≠ 0 ∧ m ≤ q := by
  intro rows m hstr
  exact dynLoop_ok m rows [] hstr (by simp)

/-- Closed instantiation of `dyn_filter_amended` on a row whose
malformed similarity is the falsy empty string: the loop completes and
excludes it. -/
theorem dyn_filter_amended_witness :
    ∃ out, search_filter_dyn [⟨"v8", PyVal.str ""⟩] (2/5) = Except.ok out ∧
      ∀ r ∈ out, ∃ q, r.similarity = PyVal.num q ∧ q ≠ 0 ∧ (2/5 : ℚ) ≤ q :=
  dyn_filter_amended [⟨"v8", PyVal.str ""⟩] (2/5) (by
    intro r hr s hs
    rcases List.mem_singleton.mp hr with rfl
    cases hs
    rfl)

end VideoSearch
